import Mathlib

/-!
Verification of the per-file data pipeline of `src/app.py` (Data Sweeper Pro):
ingestion by file extension, the three cleaning handlers (drop duplicates,
min-max normalization, mean imputation), the numeric-columns guard of the
visualization block, CSV conversion and re-ingestion, output file naming, and
the zip bundling of processed files.

Numeric cells are modelled as `Val`: a finite rational or NaN.  This idealizes
IEEE-754 doubles by exact rationals (no rounding, no overflow); NaN propagation
and the 0/0 = NaN behaviour of the normalization step are modelled explicitly.
The only division the program performs is `(v - min) / (max - min)`; a zero
divisor there forces a zero dividend on present values (v = min = max), so the
IEEE infinities (x/0 with x ≠ 0) cannot arise and are not modelled.
-/

set_option autoImplicit false

namespace DataSweeper

/-- A numeric cell value: a finite rational, or NaN (pandas missing value). -/
inductive Val where
  | num (q : ℚ)
  | nan
deriving DecidableEq

/-- A cell of an arbitrary column: numeric value or text. -/
inductive Cell where
  | v (x : Val)
  | s (x : String)
deriving DecidableEq

/-- One dataframe column: float dtype (`numeric`) or object dtype (`text`).
`pd.read_csv` infers a float dtype exactly when every entry of the column is
numeric or missing, which is how `select_dtypes(include=['number'])` sees it. -/
inductive Col where
  | numeric (cells : List Val)
  | text (cells : List String)
deriving DecidableEq

/-- Number of cells of a column. -/
def colLen : Col → ℕ
  | .numeric vs => vs.length
  | .text ss => ss.length

/-- Cell of a column at row index `i` (default values are never reached on
rectangular tables at valid indices). -/
def cellAt : Col → ℕ → Cell
  | .numeric vs, i => .v (vs.getD i .nan)
  | .text ss, i => .s (ss.getD i "")

/-- The in-memory table: named columns in left-to-right order (a dataframe). -/
structure Table where
  cols : List (String × Col)
deriving DecidableEq

/-- Column names in left-to-right order. -/
def colNames (T : Table) : List String := T.cols.map Prod.fst

/-- Row count, read off the first column (matches every column on a
rectangular table). -/
def nRows (T : Table) : ℕ :=
  match T.cols with
  | [] => 0
  | c :: _ => colLen c.2

/-- The dataframe invariant: all columns have the same length. -/
def rect (T : Table) : Bool :=
  T.cols.all fun c => colLen c.2 == nRows T

/-- Row `i` of the table, as the list of its cells across columns. -/
def rowAt (T : Table) (i : ℕ) : List Cell :=
  T.cols.map fun c => cellAt c.2 i

/-- All rows of the table in order. -/
def tableRows (T : Table) : List (List Cell) :=
  (List.range (nRows T)).map (rowAt T)

/-! ### Numeric column statistics (pandas `min` / `max` / `mean` skip NaN) -/

/-- The present (non-missing) values of a numeric column. -/
def presentVals (vs : List Val) : List ℚ :=
  vs.filterMap fun v =>
    match v with
    | .num q => some q
    | .nan => none

/-- `Series.min()`: minimum over present values, NaN when none are present. -/
def colMin (vs : List Val) : Val :=
  match presentVals vs with
  | [] => .nan
  | q :: qs => .num (qs.foldl min q)

/-- `Series.max()`: maximum over present values, NaN when none are present. -/
def colMax (vs : List Val) : Val :=
  match presentVals vs with
  | [] => .nan
  | q :: qs => .num (qs.foldl max q)

/-- `Series.mean()`: mean over present values, NaN when none are present. -/
def colMean (vs : List Val) : Val :=
  match presentVals vs with
  | [] => .nan
  | q :: qs => .num ((q :: qs).sum / (q :: qs).length)

/-! ### IEEE-style arithmetic on `Val` (NaN propagates; 0/0 is NaN) -/

/-- Subtraction with NaN propagation. -/
def vsub : Val → Val → Val
  | .num a, .num b => .num (a - b)
  | _, _ => .nan

/-- Division with NaN propagation; a zero divisor yields NaN (the only zero
divisors the program produces come with a zero dividend, IEEE 0/0 = NaN). -/
def vdiv : Val → Val → Val
  | .num a, .num b => if b = 0 then .nan else .num (a / b)
  | _, _ => .nan

/-! ### Cleaning handler: Remove Duplicates (`df.drop_duplicates(inplace=True)`,
src/app.py line 104).  Pandas keeps the first occurrence of each duplicated
row and treats NaN as equal to NaN when comparing rows. -/

/-- Indices of the rows that have no equal earlier row (the rows
`drop_duplicates` keeps, in order). -/
def keptIdx (T : Table) : List ℕ :=
  (List.range (nRows T)).filter fun i =>
    (List.range i).all fun j => rowAt T j ≠ rowAt T i

/-- Restrict a column to the cells at the given row indices. -/
def colTake (c : Col) (idx : List ℕ) : Col :=
  match c with
  | .numeric vs => .numeric (idx.filterMap fun i => vs[i]?)
  | .text ss => .text (idx.filterMap fun i => ss[i]?)

/-- `df.drop_duplicates(inplace=True)`: keep, in every column, exactly the
rows with no equal earlier row. -/
def dropDuplicates (T : Table) : Table :=
  ⟨T.cols.map fun c => (c.1, colTake c.2 (keptIdx T))⟩

/-! ### Cleaning handler: Normalize Numeric Columns (src/app.py line 109):
`df[numeric_cols] = (df[numeric_cols] - df[numeric_cols].min()) /
(df[numeric_cols].max() - df[numeric_cols].min())`, column-wise. -/

/-- Min-max rescaling of one numeric column, exactly as the handler
computes it. -/
def normalizeCol (vs : List Val) : List Val :=
  vs.map fun v => vdiv (vsub v (colMin vs)) (vsub (colMax vs) (colMin vs))

/-- Per-column action of the normalization handler: rescale a numeric
column, leave a text column alone. -/
def normalizeEntry (c : String × Col) : String × Col :=
  (c.1, match c.2 with
        | .numeric vs => .numeric (normalizeCol vs)
        | .text ss => .text ss)

/-- The Normalize Numeric Columns handler: rescale every numeric column,
leave text columns alone. -/
def normalize (T : Table) : Table :=
  ⟨T.cols.map normalizeEntry⟩

/-! ### Cleaning handler: Fill Missing Values (src/app.py line 115):
`df[numeric_cols] = df[numeric_cols].fillna(df[numeric_cols].mean())`. -/

/-- `fillna` of a single cell with fill value `m`. -/
def fillVal (m : Val) : Val → Val
  | .nan => m
  | v => v

/-- Mean imputation of one numeric column. -/
def fillCol (vs : List Val) : List Val :=
  vs.map (fillVal (colMean vs))

/-- Per-column action of the imputation handler. -/
def fillEntry (c : String × Col) : String × Col :=
  (c.1, match c.2 with
        | .numeric vs => .numeric (fillCol vs)
        | .text ss => .text ss)

/-- The Fill Missing Values handler: impute every numeric column with its
own mean, leave text columns alone. -/
def fillMissing (T : Table) : Table :=
  ⟨T.cols.map fillEntry⟩

/-! ### Python string primitives used by the pipeline -/

/-- ASCII `str.lower` on one character (file names in scope are ASCII). -/
def lowerChar (c : Char) : Char :=
  if 'A' ≤ c ∧ c ≤ 'Z' then Char.ofNat (c.toNat + 32) else c

/-- `str.lower`. -/
def lowerStr (s : String) : String := ⟨s.data.map lowerChar⟩

/-- Index of the last `'.'` of a character list, when there is one. -/
def lastDot (l : List Char) : Option ℕ :=
  ((List.range l.length).filter fun i => l.getD i ' ' = '.').getLast?

/-- `os.path.splitext` on a plain file name (uploaded names carry no
directory separators): split at the last dot, provided some character
before it is not a dot; otherwise the extension is empty. -/
def splitExtChars (l : List Char) : List Char × List Char :=
  match lastDot l with
  | none => (l, [])
  | some i =>
      if (List.range i).any (fun j => l.getD j '.' ≠ '.') then (l.take i, l.drop i)
      else (l, [])

/-- `file_extension = os.path.splitext(file.name)[-1].lower()`
(src/app.py line 82). -/
def fileExtension (name : String) : String :=
  lowerStr ⟨(splitExtChars name.data).2⟩

/-- Does `pat` match at the head of the text? -/
def leadMatch : List Char → List Char → Bool
  | [], _ => true
  | _ :: _, [] => false
  | p :: ps, c :: cs => p = c && leadMatch ps cs

/-- Left-to-right scan of Python `str.replace` for a nonempty pattern;
structural on the fuel, which callers set to the text length (enough, since
every step consumes at least one character). -/
def replaceF (pat rep : List Char) : ℕ → List Char → List Char
  | _, [] => []
  | 0, s => s
  | fuel + 1, c :: cs =>
      if leadMatch pat (c :: cs) then rep ++ replaceF pat rep fuel (cs.drop (pat.length - 1))
      else c :: replaceF pat rep fuel cs

/-- Python `s.replace("", rep)`: insert `rep` before every character and at
the end. -/
def emptyIns (rep : List Char) : List Char → List Char
  | [] => rep
  | c :: cs => rep ++ c :: emptyIns rep cs

/-- Python `str.replace(old, new)`: replace every non-overlapping occurrence
of `old`, scanning left to right. -/
def pyReplace (s pat rep : String) : String :=
  if pat.data = [] then ⟨emptyIns rep.data s.data⟩
  else ⟨replaceF pat.data rep.data s.data.length s.data⟩

/-! ### Per-file pipeline: ingestion, conversion, bundling
(src/app.py lines 80-168) -/

/-- An uploaded file: its name and the table its bytes parse to.  Parsing
the bytes is pandas (`read_csv` / `read_excel`), outside this repository;
the dispatch on the extension is the code under verification. -/
structure UFile where
  name : String
  table : Table
deriving DecidableEq

/-- Extension dispatch of src/app.py lines 82-91: `.csv` and `.xlsx` parse,
anything else reports `st.error(f"Unsupported file type: ...")` and the loop
continues with the next file. -/
def ingest (f : UFile) : Except String Table :=
  if fileExtension f.name = ".csv" then .ok f.table
  else if fileExtension f.name = ".xlsx" then .ok f.table
  else .error ("Unsupported file type: " ++ fileExtension f.name)

/-- The three cleaning buttons. -/
inductive CleanOp where
  | dedup
  | normalizeNumeric
  | fillMissingVals
deriving DecidableEq

/-- Apply one cleaning button press. -/
def applyOp (t : Table) : CleanOp → Table
  | .dedup => dropDuplicates t
  | .normalizeNumeric => normalize t
  | .fillMissingVals => fillMissing t

/-- Apply the presses of one rendering pass, in order. -/
def applyOps (ops : List CleanOp) (t : Table) : Table :=
  ops.foldl applyOp t

/-- The conversion target chosen in the radio widget. -/
inductive Fmt where
  | csv
  | excel
deriving DecidableEq

/-- Canonical extension of a target format. -/
def targetExt : Fmt → String
  | .csv => ".csv"
  | .excel => ".xlsx"

/-- Output file naming, src/app.py lines 149 and 153:
`file.name.replace(file_extension, ".csv" / ".xlsx")` where `file_extension`
is the lowercased extension. -/
def outFileName (f : UFile) (fmt : Fmt) : String :=
  pyReplace f.name (fileExtension f.name) (targetExt fmt)

/-! ### CSV serialization (`df.to_csv(index=False)`) and re-ingestion
(`pd.read_csv`) -/

/-- A comma-separated document, abstracted to its field grid: the header
line and one line of fields per row.  (RFC-4180 quoting is a bijective
transport between this grid and raw text and is not re-modelled.) -/
structure CsvDoc where
  header : List String
  rows : List (List String)
deriving DecidableEq

/-- Serialization of one numeric cell; `pr` abstracts the float formatter
(`to_csv` writes the shortest decimal that parses back to the same double);
missing cells become empty fields. -/
def printVal (pr : ℚ → String) : Val → String
  | .num q => pr q
  | .nan => ""

/-- The serialized field of column `c` at row `i`. -/
def fieldAt (pr : ℚ → String) (c : Col) (i : ℕ) : String :=
  match c with
  | .numeric vs => printVal pr (vs.getD i .nan)
  | .text ss => ss.getD i ""

/-- `df.to_csv(index=False)`: the header is the column names in order, then
one line per row with the cells serialized in column order, no index. -/
def toCsvDoc (pr : ℚ → String) (T : Table) : CsvDoc :=
  { header := colNames T
    rows := (List.range (nRows T)).map fun i => T.cols.map fun c => fieldAt pr c.2 i }

/-- The value a field takes inside a float-dtype column: empty is missing,
otherwise the parsed number (`pa` abstracts the float parser). -/
def parsedVal (pa : String → Option ℚ) (f : String) : Val :=
  if f = "" then .nan
  else
    match pa f with
    | some q => .num q
    | none => .nan

/-- `read_csv` dtype inference for one column of fields: float dtype when
every field is empty or parses as a number, else object dtype. -/
def parseColumn (pa : String → Option ℚ) (fields : List String) : Col :=
  if fields.all fun f => f == "" || (pa f).isSome then
    .numeric (fields.map (parsedVal pa))
  else
    .text fields

/-- The columns `pd.read_csv` builds: one per header field, bound to the
parsed fields of its column index. -/
def readCols (pa : String → Option ℚ) (d : CsvDoc) : List (String × Col) :=
  d.header.enum.map fun p => (p.2, parseColumn pa (d.rows.map fun r => r.getD p.1 ""))

/-- `pd.read_csv` on a document.  (`read_csv` renames duplicate or empty
header fields; such tables are excluded by hypothesis instead of
re-modelling the renaming.) -/
def readCsvDoc (pa : String → Option ℚ) (d : CsvDoc) : Table :=
  ⟨readCols pa d⟩

/-- All present numeric values of the table (the values whose formatting
the round-trip claim quantifies over). -/
def tableNumericVals (T : Table) : List ℚ :=
  T.cols.flatMap fun c =>
    match c.2 with
    | .numeric vs => presentVals vs
    | .text _ => []

/-- Conversion output bytes, one constructor per target format (`to_excel`
writes the table to the first sheet; its byte-level encoding is the
library's, deterministic per table, which is all the claims use). -/
inductive OutBytes where
  | csvBytes (d : CsvDoc)
  | xlsxBytes (t : Table)
deriving DecidableEq

/-- Serialize the (possibly cleaned) table to the chosen target format. -/
def convert (pr : ℚ → String) (t : Table) : Fmt → OutBytes
  | .csv => .csvBytes (toCsvDoc pr t)
  | .excel => .xlsxBytes t

/-- Per-file outcome of the upload loop: either the error branch of the
extension dispatch (`st.error` plus `continue`) or a converted download
offered under its output name. -/
inductive Outcome where
  | unsupported (msg : String)
  | processed (name : String) (bytes : OutBytes)
deriving DecidableEq

/-- One iteration of the `for file in uploaded_files` loop: ingest by
extension, apply the cleaning buttons pressed for this file, convert to the
chosen format under the replaced name. -/
def processFile (pr : ℚ → String) (item : UFile × List CleanOp × Fmt) : Outcome :=
  match ingest item.1 with
  | .error e => .unsupported e
  | .ok t =>
      .processed (outFileName item.1 item.2.2) (convert pr (applyOps item.2.1 t) item.2.2)

/-- The whole upload loop, file by file. -/
def runAll (pr : ℚ → String) (items : List (UFile × List CleanOp × Fmt)) : List Outcome :=
  items.map (processFile pr)

/-- The individual download buttons: one `(file_name, buffer)` pair per
successfully processed file, in processing order (src/app.py line 158). -/
def downloads (outs : List Outcome) : List (String × OutBytes) :=
  outs.filterMap fun o =>
    match o with
    | .unsupported _ => none
    | .processed n b => some (n, b)

/-- Python dict assignment `d[k] = v`: overwrite in place when the key
exists (keeping its original position), else append. -/
def upsert {β : Type} (m : List (String × β)) (k : String) (v : β) :
    List (String × β) :=
  if m.any fun p => p.1 == k then
    m.map fun p => if p.1 == k then (k, v) else p
  else m ++ [(k, v)]

/-- `processed_files` after the loop: the dict built by
`processed_files[file_name] = buffer` (src/app.py line 157). -/
def processedDict (outs : List Outcome) : List (String × OutBytes) :=
  (downloads outs).foldl (fun m p => upsert m p.1 p.2) []

/-- The zip bundle (src/app.py lines 161-168): one entry per dict item,
same name, bytes `buffer.getvalue()`. -/
def zipEntries (outs : List Outcome) : List (String × OutBytes) :=
  processedDict outs

/-- `if processed_files:` — the bulk download button is rendered iff the
dict is nonempty. -/
def bundleOffered (outs : List Outcome) : Bool :=
  !(processedDict outs).isEmpty

/-! ### Visualization block (src/app.py lines 118-138) -/

/-- The chart selectbox. -/
inductive ChartType where
  | bar
  | histogram
  | pie
  | scatter
deriving DecidableEq

/-- A chart specification: the kind and the chosen axis columns, as handed
to plotly (the histogram uses only the x axis). -/
inductive ChartSpec where
  | bar (x y : String)
  | histogram (x : String)
  | pie (labels values : String)
  | scatter (x y : String)
deriving DecidableEq

/-- What the visualization block produces for one file.  `failed` expresses
the spec's `InsufficientColumnsError`; the code never constructs it. -/
inductive VisResult where
  | shown (c : ChartSpec)
  | skipped
  | failed (err : String)
deriving DecidableEq

/-- Is the result an error report? -/
def visFailed : VisResult → Bool
  | .failed _ => true
  | _ => false

/-- `len(df.select_dtypes(include=['number']).columns)`. -/
def numericCount (T : Table) : ℕ :=
  (T.cols.filter fun c =>
    match c.2 with
    | .numeric _ => true
    | .text _ => false).length

/-- The plotly call selected by the chart type. -/
def mkChart : ChartType → String → String → ChartSpec
  | .bar, x, y => .bar x y
  | .histogram, x, _ => .histogram x
  | .pie, x, y => .pie x y
  | .scatter, x, y => .scatter x y

/-- src/app.py lines 124-138: the axis widgets and the plotly call are
rendered only under `len(numeric_columns) >= 2`; otherwise the block is
silently skipped — the code has no error path here. -/
def visualize (T : Table) (ct : ChartType) (x y : String) : VisResult :=
  if 2 ≤ numericCount T then .shown (mkChart ct x y) else .skipped

/-! ### Folded min/max facts used for the normalization bounds -/

theorem foldl_min_le_init (l : List ℚ) (a : ℚ) : l.foldl min a ≤ a := by
  induction l generalizing a with
  | nil => exact le_refl a
  | cons b l ih => exact le_trans (ih (min a b)) (min_le_left a b)

theorem foldl_min_le_of_mem {l : List ℚ} {q : ℚ} (h : q ∈ l) (a : ℚ) :
    l.foldl min a ≤ q := by
  induction l generalizing a with
  | nil => cases h
  | cons b l ih =>
    rcases List.mem_cons.mp h with hb | hl
    · subst hb
      exact le_trans (foldl_min_le_init l (min a q)) (min_le_right a q)
    · exact ih hl (min a b)

theorem foldl_min_mem (l : List ℚ) (a : ℚ) :
    l.foldl min a = a ∨ l.foldl min a ∈ l := by
  induction l generalizing a with
  | nil => exact Or.inl rfl
  | cons b l ih =>
    rcases ih (min a b) with h | h
    · rcases min_choice a b with hab | hab
      · exact Or.inl (by rw [List.foldl_cons, h, hab])
      · exact Or.inr (by rw [List.foldl_cons, h, hab]; exact List.mem_cons_self b l)
    · exact Or.inr (List.mem_cons_of_mem b h)

theorem foldl_max_ge_init (l : List ℚ) (a : ℚ) : a ≤ l.foldl max a := by
  induction l generalizing a with
  | nil => exact le_refl a
  | cons b l ih => exact le_trans (le_max_left a b) (ih (max a b))

theorem foldl_max_ge_of_mem {l : List ℚ} {q : ℚ} (h : q ∈ l) (a : ℚ) :
    q ≤ l.foldl max a := by
  induction l generalizing a with
  | nil => cases h
  | cons b l ih =>
    rcases List.mem_cons.mp h with hb | hl
    · subst hb
      exact le_trans (le_max_right a q) (foldl_max_ge_init l (max a q))
    · exact ih hl (max a b)

theorem foldl_max_mem (l : List ℚ) (a : ℚ) :
    l.foldl max a = a ∨ l.foldl max a ∈ l := by
  induction l generalizing a with
  | nil => exact Or.inl rfl
  | cons b l ih =>
    rcases ih (max a b) with h | h
    · rcases max_choice a b with hab | hab
      · exact Or.inl (by rw [List.foldl_cons, h, hab])
      · exact Or.inr (by rw [List.foldl_cons, h, hab]; exact List.mem_cons_self b l)
    · exact Or.inr (List.mem_cons_of_mem b h)

theorem mem_presentVals {vs : List Val} {q : ℚ} (h : Val.num q ∈ vs) :
    q ∈ presentVals vs :=
  List.mem_filterMap.mpr ⟨Val.num q, h, rfl⟩

theorem colMin_le_present {vs : List Val} {m : ℚ} (hm : colMin vs = Val.num m) :
    ∀ q ∈ presentVals vs, m ≤ q := by
  unfold colMin at hm
  cases h : presentVals vs with
  | nil => rw [h] at hm; cases hm
  | cons a l =>
    rw [h] at hm
    injection hm with hm'
    intro q hq
    rw [← hm']
    rcases List.mem_cons.mp hq with hqa | hql
    · subst hqa; exact foldl_min_le_init l q
    · exact foldl_min_le_of_mem hql a

theorem colMin_attained {vs : List Val} {m : ℚ} (hm : colMin vs = Val.num m) :
    m ∈ presentVals vs := by
  unfold colMin at hm
  cases h : presentVals vs with
  | nil => rw [h] at hm; cases hm
  | cons a l =>
    rw [h] at hm
    injection hm with hm'
    rw [← hm']
    rcases foldl_min_mem l a with he | he
    · rw [he]; exact List.mem_cons_self a l
    · exact List.mem_cons_of_mem a he

theorem colMax_ge_present {vs : List Val} {M : ℚ} (hM : colMax vs = Val.num M) :
    ∀ q ∈ presentVals vs, q ≤ M := by
  unfold colMax at hM
  cases h : presentVals vs with
  | nil => rw [h] at hM; cases hM
  | cons a l =>
    rw [h] at hM
    injection hM with hM'
    intro q hq
    rw [← hM']
    rcases List.mem_cons.mp hq with hqa | hql
    · subst hqa; exact foldl_max_ge_init l q
    · exact foldl_max_ge_of_mem hql a

/-- C1: the Normalize Numeric Columns handler, applied to a table whose only
numeric column is the constant column `v = [2, 2, 2]` (zero range), replaces
every cell by NaN: `(v - min) / (max - min)` is `0 / 0` at every row.  The
handler reports success and no arithmetic fault is raised, so the NaN values
are produced silently, contradicting the spec's requirement of a defined,
documented, non-NaN result for zero-range columns. -/
theorem C1_normalize_zero_range_silent_nan :
    normalize ⟨[("v", Col.numeric [Val.num 2, Val.num 2, Val.num 2])]⟩ =
      ⟨[("v", Col.numeric [Val.nan, Val.nan, Val.nan])]⟩ := by
  simp only [normalize, normalizeEntry, normalizeCol, colMin, colMax, presentVals,
    List.filterMap_cons, List.filterMap_nil, List.map_cons, List.map_nil, List.foldl_cons,
    List.foldl_nil, vsub, vdiv, Table.mk.injEq]
  norm_num

/-- C2: for every numeric column of a table whose present minimum `m` and
maximum `M` are distinct, the Normalize Numeric Columns handler rewrites the
column cell-wise to `(v - min) / (max - min)`; every present value `q` is
mapped to the rational `(q - m) / (M - m)`, which lies in `[0, 1]`; cells
equal to the minimum map to 0 and cells equal to the maximum map to 1. -/
theorem C2_normalize_distinct_minmax
    (T : Table) (k : ℕ) (nm : String) (vs : List Val) (m M : ℚ)
    (hk : T.cols[k]? = some (nm, Col.numeric vs))
    (hm : colMin vs = Val.num m) (hM : colMax vs = Val.num M)
    (hne : m ≠ M) :
    (normalize T).cols[k]? = some (nm, Col.numeric (normalizeCol vs)) ∧
    (∀ q : ℚ, Val.num q ∈ vs →
      vdiv (vsub (Val.num q) (colMin vs)) (vsub (colMax vs) (colMin vs)) =
        Val.num ((q - m) / (M - m)) ∧
      0 ≤ (q - m) / (M - m) ∧ (q - m) / (M - m) ≤ 1) ∧
    (∀ q : ℚ, Val.num q ∈ vs → q = m →
      vdiv (vsub (Val.num q) (colMin vs)) (vsub (colMax vs) (colMin vs)) =
        Val.num 0) ∧
    (∀ q : ℚ, Val.num q ∈ vs → q = M →
      vdiv (vsub (Val.num q) (colMin vs)) (vsub (colMax vs) (colMin vs)) =
        Val.num 1) := by
  have hmM : m < M := by
    have h1 : m ≤ M := colMax_ge_present hM m (colMin_attained hm)
    exact lt_of_le_of_ne h1 hne
  have hden : M - m ≠ 0 := sub_ne_zero.mpr (Ne.symm hne)
  have hcell : ∀ q : ℚ, Val.num q ∈ vs →
      vdiv (vsub (Val.num q) (colMin vs)) (vsub (colMax vs) (colMin vs)) =
        Val.num ((q - m) / (M - m)) := by
    intro q _
    rw [hm, hM]
    simp only [vsub, vdiv, if_neg hden]
  refine ⟨?_, ?_, ?_, ?_⟩
  · unfold normalize
    rw [List.getElem?_map, hk]
    rfl
  · intro q hq
    have hle := colMin_le_present hm q (mem_presentVals hq)
    have hge := colMax_ge_present hM q (mem_presentVals hq)
    refine ⟨hcell q hq, ?_, ?_⟩
    · exact div_nonneg (sub_nonneg.mpr hle) (le_of_lt (sub_pos.mpr hmM))
    · exact (div_le_one (sub_pos.mpr hmM)).mpr (sub_le_sub_right hge m)
  · intro q hq hqm
    rw [hcell q hq, hqm, sub_self, zero_div]
  · intro q hq hqM
    rw [hcell q hq, hqM, div_self hden]

/-- Witness for C2 at the column `[0, 2, NaN]`: min 0, max 2 are distinct and
the normalized column is `[0, 1, NaN]`. -/
theorem C2_normalize_distinct_minmax_witness :
    colMin [Val.num 0, Val.num 2, Val.nan] = Val.num 0 ∧
    colMax [Val.num 0, Val.num 2, Val.nan] = Val.num 2 ∧
    (normalize ⟨[("v", Col.numeric [Val.num 0, Val.num 2, Val.nan])]⟩).cols[0]? =
      some ("v", Col.numeric [Val.num 0, Val.num 1, Val.nan]) := by
  have hmin : colMin [Val.num 0, Val.num 2, Val.nan] = Val.num 0 := by
    simp only [colMin, presentVals, List.filterMap_cons, List.filterMap_nil, List.foldl_cons,
      List.foldl_nil]
    norm_num
  have hmax : colMax [Val.num 0, Val.num 2, Val.nan] = Val.num 2 := by
    simp only [colMax, presentVals, List.filterMap_cons, List.filterMap_nil, List.foldl_cons,
      List.foldl_nil]
    norm_num
  refine ⟨hmin, hmax, ?_⟩
  have h := (C2_normalize_distinct_minmax
    ⟨[("v", Col.numeric [Val.num 0, Val.num 2, Val.nan])]⟩ 0 "v"
    [Val.num 0, Val.num 2, Val.nan] 0 2 rfl hmin hmax (by norm_num)).1
  rw [h]
  simp only [normalizeCol, vsub, vdiv, hmin, hmax, List.map_cons, List.map_nil]
  norm_num

/-- C3: the Fill Missing Values handler rewrites every numeric column
cell-wise by `fillna` with that column's mean: present cells are unchanged,
missing cells become the column's mean, and when at least one value is
present the mean is the sum of present values divided by their count. -/
theorem C3_fill_missing_with_column_mean
    (T : Table) (k : ℕ) (nm : String) (vs : List Val)
    (hk : T.cols[k]? = some (nm, Col.numeric vs)) :
    (fillMissing T).cols[k]? = some (nm, Col.numeric (fillCol vs)) ∧
    (∀ (i : ℕ) (q : ℚ), vs[i]? = some (Val.num q) → (fillCol vs)[i]? = some (Val.num q)) ∧
    (∀ i : ℕ, vs[i]? = some Val.nan → (fillCol vs)[i]? = some (colMean vs)) ∧
    (∀ p ps, presentVals vs = p :: ps →
      colMean vs = Val.num ((p :: ps).sum / (p :: ps).length)) := by
  refine ⟨?_, ?_, ?_, ?_⟩
  · unfold fillMissing
    rw [List.getElem?_map, hk]
    rfl
  · intro i q hi
    unfold fillCol
    rw [List.getElem?_map, hi]
    rfl
  · intro i hi
    unfold fillCol
    rw [List.getElem?_map, hi]
    rfl
  · intro p ps hp
    unfold colMean
    rw [hp]

/-- Witness for C3 at the spec's example column `[1, 3, NaN, 5]`: the present
mean is 3 and the filled column is `[1, 3, 3, 5]`. -/
theorem C3_fill_missing_with_column_mean_witness :
    (fillMissing ⟨[("v", Col.numeric [Val.num 1, Val.num 3, Val.nan, Val.num 5])]⟩).cols[0]? =
      some ("v", Col.numeric [Val.num 1, Val.num 3, Val.num 3, Val.num 5]) := by
  have h := (C3_fill_missing_with_column_mean
    ⟨[("v", Col.numeric [Val.num 1, Val.num 3, Val.nan, Val.num 5])]⟩ 0 "v"
    [Val.num 1, Val.num 3, Val.nan, Val.num 5] rfl).1
  rw [h]
  simp only [fillCol, fillVal, colMean, presentVals, List.filterMap_cons, List.filterMap_nil,
    List.map_cons, List.map_nil]
  norm_num

/-! ### Row selection facts for `drop_duplicates` -/

theorem rect_cols {T : Table} (h : rect T = true) :
    ∀ c ∈ T.cols, colLen c.2 = nRows T := by
  intro c hc
  exact beq_iff_eq.mp (List.all_eq_true.mp h c hc)

theorem mem_keptIdx_lt {T : Table} {i : ℕ} (h : i ∈ keptIdx T) : i < nRows T :=
  List.mem_range.mp (List.mem_filter.mp h).1

theorem filterMap_index_length {α : Type} (vs : List α) (idx : List ℕ)
    (hall : ∀ i ∈ idx, i < vs.length) :
    (idx.filterMap fun i => vs[i]?).length = idx.length := by
  induction idx with
  | nil => rfl
  | cons i idx ih =>
    have hi : i < vs.length := hall i (List.mem_cons_self i idx)
    rw [List.filterMap_cons, List.getElem?_eq_getElem hi]
    simp only [List.length_cons]
    rw [ih fun j hj => hall j (List.mem_cons_of_mem i hj)]

theorem filterMap_index_getD {α : Type} (vs : List α) (idx : List ℕ) (d : α)
    (hall : ∀ i ∈ idx, i < vs.length) :
    ∀ r : ℕ, r < idx.length →
      (idx.filterMap fun i => vs[i]?).getD r d = vs.getD (idx.getD r 0) d := by
  induction idx with
  | nil => intro r hr; cases hr
  | cons i idx ih =>
    intro r hr
    have hi : i < vs.length := hall i (List.mem_cons_self i idx)
    rw [List.filterMap_cons, List.getElem?_eq_getElem hi]
    cases r with
    | zero =>
      simp only [List.getD_cons_zero]
      exact (List.getD_eq_getElem vs d hi).symm
    | succ r =>
      simp only [List.getD_cons_succ]
      exact ih (fun j hj => hall j (List.mem_cons_of_mem i hj)) r
        (Nat.lt_of_succ_lt_succ hr)

theorem range_map_getD {α β : Type} (l : List α) (f : α → β) (d : α) :
    (List.range l.length).map (fun i => f (l.getD i d)) = l.map f := by
  induction l with
  | nil => rfl
  | cons a l ih =>
    rw [List.length_cons, List.range_succ_eq_map, List.map_cons, List.map_map, List.map_cons]
    refine congrArg (f a :: ·) ?_
    simpa only [Function.comp, List.getD_cons_succ] using ih

theorem colLen_colTake {c : Col} {idx : List ℕ} (hall : ∀ i ∈ idx, i < colLen c) :
    colLen (colTake c idx) = idx.length := by
  cases c with
  | numeric vs => exact filterMap_index_length vs idx hall
  | text ss => exact filterMap_index_length ss idx hall

theorem cellAt_colTake {c : Col} {idx : List ℕ} (hall : ∀ i ∈ idx, i < colLen c)
    {r : ℕ} (hr : r < idx.length) :
    cellAt (colTake c idx) r = cellAt c (idx.getD r 0) := by
  cases c with
  | numeric vs => exact congrArg Cell.v (filterMap_index_getD vs idx Val.nan hall r hr)
  | text ss => exact congrArg Cell.s (filterMap_index_getD ss idx "" hall r hr)

theorem nRows_dropDuplicates (T : Table) (hrect : rect T = true) :
    nRows (dropDuplicates T) = (keptIdx T).length := by
  cases hT : T.cols with
  | nil =>
    have h0 : nRows T = 0 := by unfold nRows; rw [hT]
    unfold dropDuplicates nRows keptIdx
    rw [hT, h0]
    rfl
  | cons c cs =>
    unfold dropDuplicates nRows
    rw [hT, List.map_cons]
    apply colLen_colTake
    intro i hi
    rw [rect_cols hrect c (by rw [hT]; exact List.mem_cons_self c cs)]
    exact mem_keptIdx_lt hi

theorem rowAt_dropDuplicates (T : Table) (hrect : rect T = true) {r : ℕ}
    (hr : r < (keptIdx T).length) :
    rowAt (dropDuplicates T) r = rowAt T ((keptIdx T).getD r 0) := by
  unfold rowAt dropDuplicates
  rw [List.map_map]
  apply List.map_congr_left
  intro c hc
  simp only [Function.comp]
  refine cellAt_colTake ?_ hr
  intro i hi
  rw [rect_cols hrect c hc]
  exact mem_keptIdx_lt hi

/-- C4: on a rectangular table, the Remove Duplicates handler keeps exactly
the rows with no cell-for-cell equal earlier row, in their original order:
the rows of the result are the rows at indices whose row differs from every
earlier row. -/
theorem C4_drop_duplicates_keeps_first_occurrences (T : Table)
    (hrect : rect T = true) :
    tableRows (dropDuplicates T) =
      ((List.range (nRows T)).filter fun i =>
        (List.range i).all fun j => rowAt T j ≠ rowAt T i).map (rowAt T) := by
  have hK : ((List.range (nRows T)).filter fun i =>
      (List.range i).all fun j => rowAt T j ≠ rowAt T i) = keptIdx T := rfl
  rw [hK]
  unfold tableRows
  rw [nRows_dropDuplicates T hrect]
  have hcong : ∀ r ∈ List.range (keptIdx T).length,
      rowAt (dropDuplicates T) r = rowAt T ((keptIdx T).getD r 0) := by
    intro r hr
    exact rowAt_dropDuplicates T hrect (List.mem_range.mp hr)
  rw [List.map_congr_left hcong]
  exact range_map_getD (keptIdx T) (rowAt T) 0

/-- Witness for C4 at the spec's example: header `name,value`, rows
`("x",1), ("x",1), ("y",2)`; deduplication keeps rows 0 and 2. -/
theorem C4_drop_duplicates_keeps_first_occurrences_witness :
    tableRows (dropDuplicates ⟨[("name", Col.text ["x", "x", "y"]),
        ("value", Col.numeric [Val.num 1, Val.num 1, Val.num 2])]⟩) =
      [[Cell.s "x", Cell.v (Val.num 1)], [Cell.s "y", Cell.v (Val.num 2)]] := by
  have h := C4_drop_duplicates_keeps_first_occurrences
    ⟨[("name", Col.text ["x", "x", "y"]),
      ("value", Col.numeric [Val.num 1, Val.num 1, Val.num 2])]⟩ (by decide)
  rw [h]
  decide

/-! ### Invariants preserved by the cleaning handlers -/

theorem colNames_dropDuplicates (T : Table) :
    colNames (dropDuplicates T) = colNames T := by
  unfold colNames dropDuplicates
  rw [List.map_map]
  rfl

theorem colNames_normalize (T : Table) : colNames (normalize T) = colNames T := by
  unfold colNames normalize
  rw [List.map_map]
  apply List.map_congr_left
  intro c _
  cases c with
  | mk nm col => cases col <;> rfl

theorem colNames_fillMissing (T : Table) : colNames (fillMissing T) = colNames T := by
  unfold colNames fillMissing
  rw [List.map_map]
  apply List.map_congr_left
  intro c _
  cases c with
  | mk nm col => cases col <;> rfl

theorem colLen_normalizeEntry (c : String × Col) :
    colLen (normalizeEntry c).2 = colLen c.2 := by
  cases c with
  | mk nm col =>
    cases col with
    | numeric vs => simp [normalizeEntry, colLen, normalizeCol]
    | text ss => rfl

theorem colLen_fillEntry (c : String × Col) :
    colLen (fillEntry c).2 = colLen c.2 := by
  cases c with
  | mk nm col =>
    cases col with
    | numeric vs => simp [fillEntry, colLen, fillCol]
    | text ss => rfl

theorem nRows_normalize (T : Table) : nRows (normalize T) = nRows T := by
  unfold nRows normalize
  cases T.cols with
  | nil => rfl
  | cons c cs =>
    rw [List.map_cons]
    exact colLen_normalizeEntry c

theorem nRows_fillMissing (T : Table) : nRows (fillMissing T) = nRows T := by
  unfold nRows fillMissing
  cases T.cols with
  | nil => rfl
  | cons c cs =>
    rw [List.map_cons]
    exact colLen_fillEntry c

theorem rect_normalize (T : Table) : rect (normalize T) = rect T := by
  unfold rect
  rw [nRows_normalize]
  show (T.cols.map normalizeEntry).all _ = _
  rw [List.all_map]
  apply congrArg
  funext c
  simp only [Function.comp]
  rw [colLen_normalizeEntry]

theorem rect_fillMissing (T : Table) : rect (fillMissing T) = rect T := by
  unfold rect
  rw [nRows_fillMissing]
  show (T.cols.map fillEntry).all _ = _
  rw [List.all_map]
  apply congrArg
  funext c
  simp only [Function.comp]
  rw [colLen_fillEntry]

theorem rect_dropDuplicates (T : Table) (hrect : rect T = true) :
    rect (dropDuplicates T) = true := by
  apply List.all_eq_true.mpr
  intro c hc
  rw [nRows_dropDuplicates T hrect]
  unfold dropDuplicates at hc
  rcases List.mem_map.mp hc with ⟨c0, hc0, hce⟩
  apply beq_iff_eq.mpr
  rw [← hce]
  apply colLen_colTake
  intro i hi
  rw [rect_cols hrect c0 hc0]
  exact mem_keptIdx_lt hi

/-- C10: on a rectangular table each cleaning handler preserves the column
names and their left-to-right order and keeps the table rectangular;
normalization and imputation additionally preserve the row count. -/
theorem C10_cleaning_preserves_shape (T : Table) (hrect : rect T = true) :
    colNames (dropDuplicates T) = colNames T ∧ rect (dropDuplicates T) = true ∧
    colNames (normalize T) = colNames T ∧ rect (normalize T) = true ∧
    nRows (normalize T) = nRows T ∧
    colNames (fillMissing T) = colNames T ∧ rect (fillMissing T) = true ∧
    nRows (fillMissing T) = nRows T :=
  ⟨colNames_dropDuplicates T, rect_dropDuplicates T hrect,
   colNames_normalize T, by rw [rect_normalize]; exact hrect,
   nRows_normalize T,
   colNames_fillMissing T, by rw [rect_fillMissing]; exact hrect,
   nRows_fillMissing T⟩

/-- Witness for C10 at a two-column table. -/
theorem C10_cleaning_preserves_shape_witness :
    colNames (dropDuplicates ⟨[("name", Col.text ["x", "x", "y"]),
        ("value", Col.numeric [Val.num 1, Val.num 1, Val.num 2])]⟩) = ["name", "value"] ∧
    rect (normalize ⟨[("name", Col.text ["x", "x", "y"]),
        ("value", Col.numeric [Val.num 1, Val.num 1, Val.num 2])]⟩) = true ∧
    nRows (fillMissing ⟨[("name", Col.text ["x", "x", "y"]),
        ("value", Col.numeric [Val.num 1, Val.num 1, Val.num 2])]⟩) = 3 := by
  have h := C10_cleaning_preserves_shape
    ⟨[("name", Col.text ["x", "x", "y"]),
      ("value", Col.numeric [Val.num 1, Val.num 1, Val.num 2])]⟩ (by decide)
  refine ⟨?_, ?_, ?_⟩
  · rw [h.1]; rfl
  · exact h.2.2.2.1
  · rw [h.2.2.2.2.2.2.2]; rfl

/-! ### Ingestion dispatch and error localization -/

/-- C6: a file whose lowercased extension is neither `.csv` nor `.xlsx`
fails ingestion with the unsupported-file-type error, its loop iteration
produces no download, and the remaining uploads are processed exactly as
they would be without it (`continue` skips only that file). -/
theorem C6_unsupported_extension_skips_only_that_file
    (f : UFile) (ops : List CleanOp) (fmt : Fmt)
    (hcsv : fileExtension f.name ≠ ".csv") (hxlsx : fileExtension f.name ≠ ".xlsx")
    (pr : ℚ → String) (pre post : List (UFile × List CleanOp × Fmt)) :
    ingest f = .error ("Unsupported file type: " ++ fileExtension f.name) ∧
    processFile pr (f, ops, fmt) =
      .unsupported ("Unsupported file type: " ++ fileExtension f.name) ∧
    downloads (runAll pr (pre ++ (f, ops, fmt) :: post)) =
      downloads (runAll pr pre) ++ downloads (runAll pr post) := by
  have hing : ingest f = .error ("Unsupported file type: " ++ fileExtension f.name) := by
    unfold ingest
    rw [if_neg hcsv, if_neg hxlsx]
  have hproc : processFile pr (f, ops, fmt) =
      .unsupported ("Unsupported file type: " ++ fileExtension f.name) := by
    unfold processFile
    rw [hing]
  refine ⟨hing, hproc, ?_⟩
  unfold runAll downloads
  rw [List.map_append, List.map_cons, List.filterMap_append, List.filterMap_cons, hproc]

/-- Witness for C6: a `.txt` upload errors out while the `.csv` upload after
it is still processed. -/
theorem C6_unsupported_extension_skips_only_that_file_witness :
    fileExtension "notes.txt" ≠ ".csv" ∧
    downloads (runAll (fun _ => "") [(⟨"notes.txt", ⟨[]⟩⟩, [], Fmt.csv),
        (⟨"a.csv", ⟨[]⟩⟩, [], Fmt.csv)]) =
      [("a.csv", OutBytes.csvBytes ⟨[], []⟩)] := by
  refine ⟨by decide, ?_⟩
  have h := (C6_unsupported_extension_skips_only_that_file
    ⟨"notes.txt", ⟨[]⟩⟩ [] Fmt.csv (by decide) (by decide) (fun _ => "")
    [] [(⟨"a.csv", ⟨[]⟩⟩, [], Fmt.csv)]).2.2
  rw [List.nil_append] at h
  rw [h]
  decide

/-! ### Visualization guard -/

/-- C7 counterexample: on a table with a single numeric column the
visualization block is silently skipped — no chart and, contrary to the
claim, no error of any kind is reported. -/
theorem C7_no_error_on_insufficient_columns_counterexample :
    numericCount ⟨[("v", Col.numeric [Val.num 1])]⟩ < 2 ∧
    visualize ⟨[("v", Col.numeric [Val.num 1])]⟩ ChartType.bar "v" "v" =
      VisResult.skipped ∧
    visFailed (visualize ⟨[("v", Col.numeric [Val.num 1])]⟩ ChartType.bar "v" "v") =
      false := by
  decide

/-- C7 amended: with fewer than two numeric columns the visualization block
renders nothing — it is skipped without any error report. -/
theorem C7_insufficient_columns_silently_skipped
    (T : Table) (ct : ChartType) (x y : String) (h : numericCount T < 2) :
    visualize T ct x y = VisResult.skipped ∧
    visFailed (visualize T ct x y) = false := by
  unfold visualize
  rw [if_neg (by omega)]
  exact ⟨rfl, rfl⟩

/-- Witness for the amended C7 at a one-numeric-column table. -/
theorem C7_insufficient_columns_silently_skipped_witness :
    numericCount ⟨[("v", Col.numeric [Val.num 1])]⟩ < 2 ∧
    visualize ⟨[("v", Col.numeric [Val.num 1])]⟩ ChartType.scatter "v" "v" =
      VisResult.skipped := by
  refine ⟨by decide, ?_⟩
  exact (C7_insufficient_columns_silently_skipped _ ChartType.scatter "v" "v"
    (by decide)).1

/-! ### Output file naming -/

theorem leadMatch_self (l : List Char) : leadMatch l l = true := by
  induction l with
  | nil => rfl
  | cons c cs ih => simp [leadMatch, ih]

theorem replaceF_nil_text (pat rep : List Char) (fuel : ℕ) :
    replaceF pat rep fuel [] = [] := by
  cases fuel <;> rfl

/-- C9 counterexample: converting `a.csv.csv` to spreadsheet format names
the output `a.xlsx.xlsx` — Python `str.replace` substitutes every occurrence
of the extension substring, not only the trailing extension, so the claimed
name `a.csv.xlsx` is not produced. -/
theorem C9_output_name_replaces_every_occurrence_counterexample :
    fileExtension "a.csv.csv" = ".csv" ∧
    outFileName ⟨"a.csv.csv", ⟨[]⟩⟩ Fmt.excel = "a.xlsx.xlsx" ∧
    outFileName ⟨"a.csv.csv", ⟨[]⟩⟩ Fmt.excel ≠ "a.csv.xlsx" := by
  decide

theorem replaceF_unique_suffix (pat rep : List Char) (hp : pat ≠ []) :
    ∀ stem : List Char,
      (∀ i, i < stem.length → leadMatch pat ((stem ++ pat).drop i) = false) →
      replaceF pat rep (stem ++ pat).length (stem ++ pat) = stem ++ rep := by
  intro stem
  induction stem with
  | nil =>
    intro _
    cases pat with
    | nil => exact absurd rfl hp
    | cons p ps =>
      simp only [List.nil_append, List.length_cons, replaceF]
      rw [if_pos (leadMatch_self (p :: ps))]
      simp only [List.length_cons, Nat.add_sub_cancel, List.drop_length,
        replaceF_nil_text, List.append_nil]
  | cons c stem ih =>
    intro honly
    have h0 : leadMatch pat (c :: (stem ++ pat)) = false := by
      have := honly 0 (Nat.succ_pos _)
      simpa using this
    show replaceF pat rep (c :: (stem ++ pat)).length (c :: (stem ++ pat)) =
      (c :: stem) ++ rep
    rw [List.length_cons]
    simp only [replaceF]
    rw [if_neg (by simp [h0])]
    rw [ih fun i hi => by
      have := honly (i + 1) (Nat.succ_lt_succ hi)
      simpa using this]
    rfl

/-- C9 amended: the output file name substitutes the conversion target's
canonical extension for every occurrence of the lowercased extension
substring; when the name's extension is lowercase, nonempty, and occurs only
as the trailing extension, this equals replacing the trailing extension and
leaving the rest of the name unchanged. -/
theorem C9_output_name_trailing_extension
    (f : UFile) (fmt : Fmt) (stem : List Char)
    (hsplit : f.name.data = stem ++ (fileExtension f.name).data)
    (hne : (fileExtension f.name).data ≠ [])
    (honly : ∀ i, i < stem.length →
      leadMatch (fileExtension f.name).data (f.name.data.drop i) = false) :
    outFileName f fmt = ⟨stem ++ (targetExt fmt).data⟩ := by
  unfold outFileName pyReplace
  rw [if_neg hne]
  refine congrArg String.mk ?_
  rw [hsplit]
  refine replaceF_unique_suffix _ _ hne stem ?_
  intro i hi
  rw [← hsplit]
  exact honly i hi

/-- Witness for the amended C9: `report.xlsx` converted to comma-separated
form is offered as `report.csv`. -/
theorem C9_output_name_trailing_extension_witness :
    outFileName ⟨"report.xlsx", ⟨[]⟩⟩ Fmt.csv = "report.csv" := by
  have h := C9_output_name_trailing_extension ⟨"report.xlsx", ⟨[]⟩⟩ Fmt.csv
    "report".data (by decide) (by decide) (by decide)
  rw [h]
  decide

/-! ### Zip bundling -/

/-- C8 counterexample: `a.csv` converted to spreadsheet and `a.xlsx`
converted to spreadsheet both produce the output name `a.xlsx`; two files
are processed (two individual downloads) but the dict keyed by output name
keeps one entry, holding only the later file's bytes. -/
theorem C8_archive_name_collision_counterexample :
    (downloads (runAll (fun _ => "") [(⟨"a.csv", ⟨[]⟩⟩, [], Fmt.excel),
        (⟨"a.xlsx", ⟨[("x", Col.numeric [])]⟩⟩, [], Fmt.excel)])).length = 2 ∧
    zipEntries (runAll (fun _ => "") [(⟨"a.csv", ⟨[]⟩⟩, [], Fmt.excel),
        (⟨"a.xlsx", ⟨[("x", Col.numeric [])]⟩⟩, [], Fmt.excel)]) =
      [("a.xlsx", OutBytes.xlsxBytes ⟨[("x", Col.numeric [])]⟩)] := by
  decide

theorem foldl_upsert_nodup {β : Type} (l : List (String × β)) (acc : List (String × β))
    (hdisj : ∀ p ∈ l, ∀ q ∈ acc, q.1 ≠ p.1)
    (hnd : (l.map Prod.fst).Nodup) :
    l.foldl (fun m p => upsert m p.1 p.2) acc = acc ++ l := by
  induction l generalizing acc with
  | nil => simp
  | cons p l ih =>
    simp only [List.foldl_cons]
    have hany : (acc.any fun q => q.1 == p.1) = false := by
      apply List.any_eq_false.mpr
      intro q hq
      simpa [beq_iff_eq] using hdisj p (List.mem_cons_self p l) q hq
    have hup : upsert acc p.1 p.2 = acc ++ [(p.1, p.2)] := by
      unfold upsert
      rw [hany]
      rfl
    have hn' : (p.1 :: l.map Prod.fst).Nodup := by simpa using hnd
    have hp1 : p.1 ∉ l.map Prod.fst := (List.nodup_cons.mp hn').1
    rw [hup, ih (acc ++ [(p.1, p.2)])]
    · simp
    · intro r hr q hq
      rcases List.mem_append.mp hq with hq | hq
      · exact hdisj r (List.mem_cons_of_mem p hr) q hq
      · rcases List.mem_singleton.mp hq with rfl
        intro he
        exact hp1 (he ▸ List.mem_map_of_mem Prod.fst hr)
    · exact (List.nodup_cons.mp hn').2

theorem processedDict_eq_downloads (outs : List Outcome)
    (hnd : ((downloads outs).map Prod.fst).Nodup) :
    processedDict outs = downloads outs := by
  unfold processedDict
  have h := foldl_upsert_nodup (downloads outs) [] (by intro p _ q hq; cases hq) hnd
  simpa using h

theorem ingest_ok_table {f : UFile} {t : Table} (h : ingest f = .ok t) :
    t = f.table := by
  unfold ingest at h
  by_cases h1 : fileExtension f.name = ".csv"
  · rw [if_pos h1] at h
    injection h with h
    exact h.symm
  · rw [if_neg h1] at h
    by_cases h2 : fileExtension f.name = ".xlsx"
    · rw [if_pos h2] at h
      injection h with h
      exact h.symm
    · rw [if_neg h2] at h
      cases h

theorem downloads_runAll (pr : ℚ → String) (items : List (UFile × List CleanOp × Fmt)) :
    downloads (runAll pr items) =
      (items.filter fun it => (ingest it.1).isOk).map fun it =>
        (outFileName it.1 it.2.2, convert pr (applyOps it.2.1 it.1.table) it.2.2) := by
  induction items with
  | nil => rfl
  | cons it items ih =>
    show downloads (processFile pr it :: runAll pr items) = _
    rw [downloads, List.filterMap_cons, List.filter_cons]
    cases hing : ingest it.1 with
    | error e =>
      have hpf : processFile pr it = .unsupported e := by
        unfold processFile
        rw [hing]
      rw [hpf]
      show downloads (runAll pr items) = _
      rw [ih]
      simp [Except.isOk, Except.toBool]
    | ok t =>
      have hpf : processFile pr it = .processed (outFileName it.1 it.2.2)
          (convert pr (applyOps it.2.1 it.1.table) it.2.2) := by
        unfold processFile
        rw [hing, ingest_ok_table hing]
      rw [hpf]
      show (outFileName it.1 it.2.2, convert pr (applyOps it.2.1 it.1.table) it.2.2) ::
        downloads (runAll pr items) = _
      rw [ih]
      simp [Except.isOk, Except.toBool]

/-- C8 amended: the archive has one entry per distinct output name (a later
file with the same output name overwrites the dict entry); when the output
names of the processed files are pairwise distinct, the archive entries are
exactly the individual downloads, in order, with equal names and bytes, and
the downloads are exactly the ingestible uploads converted under the naming
rule; the bundle is offered iff at least one file was processed. -/
theorem C8_zip_entries_match_downloads
    (pr : ℚ → String) (items : List (UFile × List CleanOp × Fmt))
    (hnd : ((downloads (runAll pr items)).map Prod.fst).Nodup) :
    zipEntries (runAll pr items) = downloads (runAll pr items) ∧
    downloads (runAll pr items) =
      (items.filter fun it => (ingest it.1).isOk).map (fun it =>
        (outFileName it.1 it.2.2, convert pr (applyOps it.2.1 it.1.table) it.2.2)) ∧
    (bundleOffered (runAll pr items) = true ↔ downloads (runAll pr items) ≠ []) := by
  have hz : zipEntries (runAll pr items) = downloads (runAll pr items) :=
    processedDict_eq_downloads _ hnd
  refine ⟨hz, downloads_runAll pr items, ?_⟩
  unfold bundleOffered
  rw [show processedDict (runAll pr items) = downloads (runAll pr items) from hz]
  simp [List.isEmpty_iff]

/-- Witness for the amended C8: two uploads with distinct output names give
an archive whose entries are exactly the two downloads. -/
theorem C8_zip_entries_match_downloads_witness :
    zipEntries (runAll (fun _ => "") [(⟨"a.csv", ⟨[]⟩⟩, [], Fmt.csv),
        (⟨"b.xlsx", ⟨[]⟩⟩, [], Fmt.excel)]) =
      downloads (runAll (fun _ => "") [(⟨"a.csv", ⟨[]⟩⟩, [], Fmt.csv),
        (⟨"b.xlsx", ⟨[]⟩⟩, [], Fmt.excel)]) ∧
    (downloads (runAll (fun _ => "") [(⟨"a.csv", ⟨[]⟩⟩, [], Fmt.csv),
        (⟨"b.xlsx", ⟨[]⟩⟩, [], Fmt.excel)])).length = 2 := by
  refine ⟨(C8_zip_entries_match_downloads (fun _ => "") _ (by decide)).1, by decide⟩

/-! ### CSV round trip -/

theorem getD_map_lt {α β : Type} (l : List α) (f : α → β) {k : ℕ} (hk : k < l.length)
    (d : β) (d' : α) : (l.map f).getD k d = f (l.getD k d') := by
  rw [List.getD_eq_getElem _ d (by simpa using hk), List.getD_eq_getElem _ d' hk]
  simp

theorem colLen_parseColumn (pa : String → Option ℚ) (fields : List String) :
    colLen (parseColumn pa fields) = fields.length := by
  unfold parseColumn
  split
  · simp [colLen]
  · rfl

theorem readCols_getElem? (pa : String → Option ℚ) (d : CsvDoc) (k : ℕ) :
    (readCols pa d)[k]? = (d.header[k]?).map fun nm =>
      (nm, parseColumn pa (d.rows.map fun r => r.getD k "")) := by
  unfold readCols
  rw [List.getElem?_map, List.getElem?_enum]
  cases d.header[k]? <;> rfl

theorem nRows_eq_head (l : List (String × Col)) :
    nRows ⟨l⟩ = (match l[0]? with
                 | none => 0
                 | some c => colLen c.2) := by
  cases l with
  | nil => rfl
  | cons c t => simp [nRows]

/-- C5: serializing a rectangular table with `to_csv(index=False)` and
re-ingesting the document with `read_csv` preserves the column names, the
row count, and every numeric column cell-for-cell, provided the numeric
formatter round-trips the values present in the table (the claim's
"up to floating-point formatting"; `to_csv` writes the shortest decimal that
parses back to the same double, so real runs satisfy it).  The Nodup and
nonempty hypotheses on names exclude the tables on which `read_csv` renames
header fields (`a.1`, `Unnamed: 0`), a renaming the model does not re-model. -/
theorem C5_csv_round_trip (pr : ℚ → String) (pa : String → Option ℚ) (T : Table)
    (hrect : rect T = true)
    (hnodup : (colNames T).Nodup)
    (hne : ∀ nm ∈ colNames T, nm ≠ "")
    (hcodec : ∀ q ∈ tableNumericVals T, pa (pr q) = some q ∧ pr q ≠ "") :
    colNames (readCsvDoc pa (toCsvDoc pr T)) = colNames T ∧
    nRows (readCsvDoc pa (toCsvDoc pr T)) = nRows T ∧
    ∀ (k : ℕ) (nm : String) (vs : List Val),
      T.cols[k]? = some (nm, Col.numeric vs) →
      (readCsvDoc pa (toCsvDoc pr T)).cols[k]? = some (nm, Col.numeric vs) := by
  refine ⟨?_, ?_, ?_⟩
  · -- column names survive
    show (readCols pa (toCsvDoc pr T)).map Prod.fst = colNames T
    unfold readCols
    rw [List.map_map]
    have hstep : ∀ p ∈ (toCsvDoc pr T).header.enum,
        (Prod.fst ∘ fun p : ℕ × String =>
          (p.2, parseColumn pa ((toCsvDoc pr T).rows.map fun r => r.getD p.1 ""))) p =
          Prod.snd p := fun p _ => rfl
    rw [List.map_congr_left hstep, List.enum_map_snd]
    rfl
  · -- the row count survives
    have hmain : nRows (readCsvDoc pa (toCsvDoc pr T)) =
        (match (readCols pa (toCsvDoc pr T))[0]? with
         | none => 0
         | some c => colLen c.2) := nRows_eq_head _
    rw [hmain, readCols_getElem?]
    cases hh : (toCsvDoc pr T).header[0]? with
    | none =>
      have hnil : T.cols = [] := by
        have hlen := List.getElem?_eq_none_iff.mp hh
        have : T.cols.length = 0 := by
          simpa [toCsvDoc, colNames] using Nat.le_zero.mp hlen
        exact List.length_eq_zero.mp this
      show (0 : ℕ) = nRows T
      unfold nRows
      rw [hnil]
    | some nm =>
      show colLen (parseColumn pa ((toCsvDoc pr T).rows.map fun r => r.getD 0 "")) = nRows T
      rw [colLen_parseColumn, List.length_map]
      show ((List.range (nRows T)).map fun i =>
        T.cols.map fun c => fieldAt pr c.2 i).length = nRows T
      rw [List.length_map, List.length_range]
  · -- every numeric column survives cell-for-cell
    intro k nm vs hk
    have hklen : k < T.cols.length := (List.getElem?_eq_some.mp hk).1
    have hmem : (nm, Col.numeric vs) ∈ T.cols := by
      rcases List.getElem?_eq_some.mp hk with ⟨h1, h2⟩
      exact h2 ▸ List.getElem_mem h1
    have hvslen : vs.length = nRows T := by
      have := rect_cols hrect _ hmem
      simpa [colLen] using this
    have hmemv : ∀ q : ℚ, Val.num q ∈ vs → pa (pr q) = some q ∧ pr q ≠ "" := by
      intro q hv
      refine hcodec q (List.mem_flatMap.mpr ⟨(nm, Col.numeric vs), hmem, ?_⟩)
      exact mem_presentVals hv
    have hname : (toCsvDoc pr T).header[k]? = some nm := by
      show (colNames T)[k]? = some nm
      unfold colNames
      rw [List.getElem?_map, hk]
      rfl
    have hfields : (toCsvDoc pr T).rows.map (fun r => r.getD k "") =
        vs.map (printVal pr) := by
      show ((List.range (nRows T)).map fun i =>
        T.cols.map fun c => fieldAt pr c.2 i).map (fun r => r.getD k "") = _
      rw [List.map_map]
      have hstep : ∀ i ∈ List.range (nRows T),
          ((fun r : List String => r.getD k "") ∘ fun i =>
            T.cols.map fun c => fieldAt pr c.2 i) i =
            printVal pr (vs.getD i Val.nan) := by
        intro i _
        show (T.cols.map fun c => fieldAt pr c.2 i).getD k "" = _
        rw [getD_map_lt T.cols _ hklen "" ("", Col.text [])]
        have hgd : T.cols.getD k ("", Col.text []) = (nm, Col.numeric vs) := by
          rw [List.getD_eq_getElem _ _ hklen]
          exact (List.getElem?_eq_some.mp hk).2
        rw [hgd]
        rfl
      rw [List.map_congr_left hstep, ← hvslen]
      exact range_map_getD vs (printVal pr) Val.nan
    have hall : ((vs.map (printVal pr)).all fun f => f == "" || (pa f).isSome) = true := by
      apply List.all_eq_true.mpr
      intro f hf
      rcases List.mem_map.mp hf with ⟨v, hv, rfl⟩
      cases v with
      | nan => simp [printVal]
      | num q => simp [printVal, (hmemv q hv).1]
    have hparse : parseColumn pa (vs.map (printVal pr)) = Col.numeric vs := by
      unfold parseColumn
      rw [if_pos hall]
      refine congrArg Col.numeric ?_
      rw [List.map_map]
      have hstep : ∀ v ∈ vs, (parsedVal pa ∘ printVal pr) v = v := by
        intro v hv
        cases v with
        | nan => simp [printVal, parsedVal]
        | num q =>
          show parsedVal pa (pr q) = Val.num q
          unfold parsedVal
          rw [if_neg (hmemv q hv).2, (hmemv q hv).1]
      rw [List.map_congr_left hstep]
      simp
    show (readCols pa (toCsvDoc pr T))[k]? = some (nm, Col.numeric vs)
    rw [readCols_getElem?, hname]
    show some (nm, parseColumn pa ((toCsvDoc pr T).rows.map fun r => r.getD k "")) = _
    rw [hfields, hparse]

/-- Witness for C5 at a two-column table with a text column, a numeric value
and a missing value, with a formatter/parser pair that round-trips the value
present. -/
theorem C5_csv_round_trip_witness :
    colNames (readCsvDoc (fun s => if s = "1" then some 1 else none)
      (toCsvDoc (fun q => if q = 1 then "1" else "?")
        ⟨[("name", Col.text ["x", "y"]), ("value", Col.numeric [Val.num 1, Val.nan])]⟩)) =
      ["name", "value"] ∧
    nRows (readCsvDoc (fun s => if s = "1" then some 1 else none)
      (toCsvDoc (fun q => if q = 1 then "1" else "?")
        ⟨[("name", Col.text ["x", "y"]), ("value", Col.numeric [Val.num 1, Val.nan])]⟩)) = 2 ∧
    (readCsvDoc (fun s => if s = "1" then some 1 else none)
      (toCsvDoc (fun q => if q = 1 then "1" else "?")
        ⟨[("name", Col.text ["x", "y"]), ("value", Col.numeric [Val.num 1, Val.nan])]⟩)).cols[1]? =
      some ("value", Col.numeric [Val.num 1, Val.nan]) := by
  have hcodec : ∀ q ∈ tableNumericVals
      ⟨[("name", Col.text ["x", "y"]), ("value", Col.numeric [Val.num 1, Val.nan])]⟩,
      (fun s => if s = "1" then some 1 else none) ((fun q => if q = 1 then "1" else "?") q) =
        some q ∧ (fun q : ℚ => if q = 1 then "1" else "?") q ≠ "" := by
    decide
  have h := C5_csv_round_trip (fun q => if q = 1 then "1" else "?")
    (fun s => if s = "1" then some 1 else none)
    ⟨[("name", Col.text ["x", "y"]), ("value", Col.numeric [Val.num 1, Val.nan])]⟩
    (by decide) (by decide) (by decide) hcodec
  refine ⟨?_, ?_, h.2.2 1 "value" [Val.num 1, Val.nan] rfl⟩
  · rw [h.1]
    rfl
  · rw [h.2.1]
    rfl

end DataSweeper
